import Mathlib

/-!
Local key store of the node manager.

A shallow embedding of `nodemgr/internal/lib/algo/algolocalkeysigning.go`.

* Go strings are sequences of bytes.  Every string operation the file uses
  (equality, concatenation, `strings.Contains`, `strings.IndexByte`, the slice
  `s[0:i]`) is generic in the alphabet, so a Go string is a Lean `String` and one
  element of it stands for one element of the Go string.
* `map[string]ed25519.PrivateKey` is a `Finmap`: a finite map without any order.
  The order in which `range` visits the keys is not fixed by the language, so it is
  an explicit argument (`rangeOrder`) constrained by `IsRangeOrder`.
* The collaborators living outside the repository (`mnemonic.ToPrivateKey`,
  `crypto.AccountFromPrivateKey`, `crypto.SignTransaction`) are the fields of
  `Prims`.  Every call to one of them, every log record and `os.Exit` is recorded
  in a trace of `Event`s, in program order.
-/

namespace algo

/-! ## Go values -/

/-- Bytes of an `ed25519.PrivateKey`. -/
abbrev PrivateKey := List Nat

/-- A `types.Transaction`; the key store only hands it to the signing primitive. -/
abbrev Transaction := List Nat

/-- Go `error` values: a plain message (`errors.New`, `fmt.Errorf` without `%w`) or
the `*fmt.wrapError` built by `fmt.Errorf` with `%w`. -/
inductive GoError where
  | errorString (s : String)
  | wrapError (msg : String) (err : GoError)
  deriving DecidableEq, Repr

/-- The method `Error()` of a Go error. -/
def GoError.Error : GoError → String
  | .errorString s => s
  | .wrapError msg _ => msg

/-- The method `Unwrap()` of a Go error. -/
def GoError.Unwrap : GoError → Option GoError
  | .errorString _ => none
  | .wrapError _ err => some err

/-- The call `fmt.Errorf(format + "%w", err)`: the text is the format's text followed
by `err.Error()`, and the result unwraps to `err`. -/
def fmt.ErrorfW (text : String) (err : GoError) : GoError :=
  .wrapError (text ++ err.Error) err

/-! ## `strings` and `os` -/

/-- Substring test on the elements of two strings. -/
def strings.containsChars (substr : List Char) : List Char → Bool
  | [] => substr.isEmpty
  | c :: s => substr.isPrefixOf (c :: s) || strings.containsChars substr s

/-- Go `strings.Contains(s, substr)`. -/
def strings.Contains (s substr : String) : Bool :=
  strings.containsChars substr.data s.data

/-- Index of the first occurrence of `c`, or `-1`. -/
def strings.indexByteChars (c : Char) : List Char → Int
  | [] => -1
  | d :: s =>
    if d = c then 0
    else if strings.indexByteChars c s < 0 then -1
    else strings.indexByteChars c s + 1

/-- Go `strings.IndexByte(s, c)`. -/
def strings.IndexByte (s : String) (c : Char) : Int :=
  strings.indexByteChars c s.data

/-- The slice expression `s[0:hi]`; `none` is the run-time panic
"slice bounds out of range". -/
def sliceTo (s : String) (hi : Int) : Option String :=
  if 0 ≤ hi ∧ hi ≤ (s.data.length : Int) then some ⟨s.data.take hi.toNat⟩ else none

/-- The slice expression `s[lo:]` for `lo` within bounds. -/
def sliceFrom (s : String) (lo : Nat) : String :=
  ⟨s.data.drop lo⟩

/-- Name of an environment entry: the text before its first `=`, when it has one. -/
def os.entryName (entry : String) : Option String :=
  sliceTo entry (strings.IndexByte entry '=')

/-- Go `os.Getenv(key)` over the entries `os.Environ()` returns: the text after the
first `=` of the first entry named `key`; empty when the key is empty or unset. -/
def os.Getenv (environ : List String) (key : String) : String :=
  if key.data.length = 0 then ""
  else
    match environ.find? (fun entry => decide (os.entryName entry = some key)) with
    | some entry => sliceFrom entry ((strings.IndexByte entry '=').toNat + 1)
    | none => ""

/-! ## Collaborators and observable effects -/

/-- Result of `crypto.AccountFromPrivateKey`; `Address` is kept in the textual form
`account.Address.String()` returns. -/
structure Account where
  Address : String
  deriving DecidableEq, Repr

/-- Result triple of `crypto.SignTransaction` and of `SignWithAccount`.  A nil byte
slice is the empty list. -/
structure Signed where
  txid : String
  stxBytes : List Nat
  err : Option GoError
  deriving DecidableEq, Repr

/-- The external primitives of the Algorand SDK. -/
structure Prims where
  ToPrivateKey : String → Except GoError PrivateKey
  AccountFromPrivateKey : PrivateKey → Except GoError Account
  SignTransaction : PrivateKey → Transaction → Signed

/-- Levels of `slog`. -/
inductive Level where
  | Debug
  | Info
  | Error
  deriving DecidableEq, Repr

/-- Effects visible outside the key store. -/
inductive Event where
  | ToPrivateKey (mnemonicPhrase : String)
  | AccountFromPrivateKey (key : PrivateKey)
  | SignTransaction (key : PrivateKey) (tx : Transaction)
  | Log (level : Level) (msg : String)
  | Exit (code : Nat)
  deriving DecidableEq, Repr

/-- Modelled from the spec: `misc.Infof` of `internal/lib/misc` is not among the
sources; the logging collaborator "accepts leveled text messages", so the call hands
the formatted text to the logger at level Info. -/
def misc.Infof (text : String) : Event :=
  .Log .Info text

/-- Modelled from the spec: `misc.Debugf` of `internal/lib/misc` is not among the
sources; the logging collaborator "accepts leveled text messages", so the call hands
the formatted text to the logger at level Debug. -/
def misc.Debugf (text : String) : Event :=
  .Log .Debug text

/-! ## The key store -/

/-- The Go type `map[string]ed25519.PrivateKey`. -/
abbrev KeyMap := Finmap (fun _ : String => PrivateKey)

/-- The struct `localKeyStore`.  Its field `log` is a handle on the logger; what is
written through it appears in the trace. -/
structure localKeyStore where
  keys : KeyMap
  deriving DecidableEq

/-- The sequence `order` is one that `for addr := range m` may produce: every key of
`m` exactly once. -/
def IsRangeOrder (m : KeyMap) (order : List String) : Prop :=
  order.Nodup ∧ order.toFinset = m.keys

instance (m : KeyMap) (order : List String) : Decidable (IsRangeOrder m order) :=
  inferInstanceAs (Decidable (_ ∧ _))

/-- Method `HasAccount`. -/
def localKeyStore.HasAccount (lk : localKeyStore) (publicAddress : String) : Bool :=
  (lk.keys.lookup publicAddress).isSome

/-- The loop `for _, address := range addresses` of `FindFirstSigner` together with
the final `return`. -/
def localKeyStore.scanAddresses (lk : localKeyStore) : List String → String × Option GoError
  | [] => ("", some (.errorString "no signer found for any of the addresses"))
  | address :: rest =>
    if lk.HasAccount address then (address, none) else lk.scanAddresses rest

/-- Method `FindFirstSigner`.  With no address given, the first key that `range`
yields is returned; an empty map falls through to the scan. -/
def localKeyStore.FindFirstSigner (lk : localKeyStore) (rangeOrder : List String)
    (addresses : List String) : String × Option GoError :=
  match (if addresses.length = 0 then rangeOrder.head? else none) with
  | some addr => (addr, none)
  | none => lk.scanAddresses addresses

/-- What `SignWithAccount` returns, with the trace of the calls it made. -/
structure SignOutcome where
  result : Signed
  trace : List Event
  deriving DecidableEq

/-- Method `SignWithAccount` (the context argument is unused by the source). -/
def localKeyStore.SignWithAccount (P : Prims) (lk : localKeyStore) (tx : Transaction)
    (publicAddress : String) : SignOutcome :=
  match lk.keys.lookup publicAddress with
  | none =>
    ⟨⟨"", [], some (.errorString ("key not found for address " ++ publicAddress))⟩, []⟩
  | some key => ⟨P.SignTransaction key tx, [.SignTransaction key tx]⟩

/-- What `addMnemonic` returns, with the store it leaves and the trace of its calls. -/
structure AddOutcome where
  err : Option GoError
  lk : localKeyStore
  trace : List Event
  deriving DecidableEq

/-- Method `addMnemonic`. -/
def localKeyStore.addMnemonic (P : Prims) (lk : localKeyStore) (mnemonicPhrase : String) :
    AddOutcome :=
  match P.ToPrivateKey mnemonicPhrase with
  | .error err =>
    ⟨some (fmt.ErrorfW "failed to add mnemonic: " err), lk, [.ToPrivateKey mnemonicPhrase]⟩
  | .ok key =>
    match P.AccountFromPrivateKey key with
    | .error err =>
      ⟨some (fmt.ErrorfW "failed to add mnemonic: " err), lk,
        [.ToPrivateKey mnemonicPhrase, .AccountFromPrivateKey key]⟩
    | .ok account =>
      ⟨none, ⟨lk.keys.insert account.Address key⟩,
        [.ToPrivateKey mnemonicPhrase, .AccountFromPrivateKey key,
          misc.Infof ("Mnemonics available for account:" ++ account.Address)]⟩

/-- How control leaves the loader. -/
inductive Outcome where
  | returned
  | exited (code : Nat)
  | panicked
  deriving DecidableEq, Repr

/-- State in which the loader leaves the store, the trace of its effects, and how it
ended. -/
structure LoadResult where
  lk : localKeyStore
  trace : List Event
  outcome : Outcome
  deriving DecidableEq

/-- Effects that happened before the rest of a run. -/
def LoadResult.after (pre : List Event) (r : LoadResult) : LoadResult :=
  ⟨r.lk, pre ++ r.trace, r.outcome⟩

/-- The statement after the loop of `loadFromEnvironment`: the count is logged and the
method returns. -/
def loadFromEnvironment.done (lk : localKeyStore) (numMnemonics : Nat) : LoadResult :=
  ⟨lk, [misc.Debugf ("loaded " ++ toString numMnemonics ++ " mnemonics")], .returned⟩

/-- The loop of `loadFromEnvironment` over the entries still to visit. -/
def loadFromEnvironment.loop (P : Prims) (environ : List String) :
    List String → localKeyStore → Nat → LoadResult
  | [], lk, numMnemonics => loadFromEnvironment.done lk numMnemonics
  | envVal :: rest, lk, numMnemonics =>
    if !strings.Contains envVal "_MNEMONIC" then
      loadFromEnvironment.loop P environ rest lk numMnemonics
    else
      match sliceTo envVal (strings.IndexByte envVal '=') with
      | none => ⟨lk, [], .panicked⟩
      | some key =>
        if os.Getenv environ key = "" then
          loadFromEnvironment.done lk numMnemonics
        else
          match (lk.addMnemonic P (os.Getenv environ key)).err with
          | some err =>
            ⟨(lk.addMnemonic P (os.Getenv environ key)).lk,
              (lk.addMnemonic P (os.Getenv environ key)).trace ++
                [.Log .Error ("fatal error in envMnemonic load, idx key:" ++ key ++
                    ", err:" ++ err.Error),
                  .Exit 1],
              .exited 1⟩
          | none =>
            (loadFromEnvironment.loop P environ rest
              (lk.addMnemonic P (os.Getenv environ key)).lk (numMnemonics + 1)).after
              (lk.addMnemonic P (os.Getenv environ key)).trace

/-- Method `loadFromEnvironment`, run in the process environment `environ`
(the list `os.Environ()` returns). -/
def localKeyStore.loadFromEnvironment (P : Prims) (environ : List String)
    (lk : localKeyStore) : LoadResult :=
  loadFromEnvironment.loop P environ environ lk 0

/-- Function `NewLocalKeyStore`: an empty map, then the load. -/
def NewLocalKeyStore (P : Prims) (environ : List String) : LoadResult :=
  localKeyStore.loadFromEnvironment P environ ⟨∅⟩

/-! ## Notions used to state the properties -/

/-- Identity and key material a phrase derives, when both derivations succeed. -/
def deriveEntry (P : Prims) (mnemonicPhrase : String) : Option (String × PrivateKey) :=
  match P.ToPrivateKey mnemonicPhrase with
  | .error _ => none
  | .ok key =>
    match P.AccountFromPrivateKey key with
    | .error _ => none
    | .ok account => some (account.Address, key)

/-- The store after `addMnemonic` has been called on each phrase in turn. -/
def addAll (P : Prims) (lk : localKeyStore) (phrases : List String) : localKeyStore :=
  phrases.foldl (fun st p => (st.addMnemonic P p).lk) lk

/-- Every entry of the list has the form `NAME=VALUE`. -/
def NameValueForm (entries : List String) : Prop :=
  ∀ e ∈ entries, '=' ∈ e.data

instance (entries : List String) : Decidable (NameValueForm entries) :=
  inferInstanceAs (Decidable (∀ e ∈ entries, _))

/-- Trace of the calls of `addMnemonic` on each phrase in turn. -/
def addAllTrace (P : Prims) (lk : localKeyStore) : List String → List Event
  | [] => []
  | p :: ps =>
    (lk.addMnemonic P p).trace ++ addAllTrace P (lk.addMnemonic P p).lk ps

/-- Pairs of name and phrase the loader reads for the entries `rest`, in scan order:
one for every entry containing the marker, the phrase being the value `os.Getenv`
gives for the name. -/
def entriesOf (environ : List String) (rest : List String) : List (String × String) :=
  (rest.filter (fun e => strings.Contains e "_MNEMONIC")).map
    (fun e => ((os.entryName e).getD "", os.Getenv environ ((os.entryName e).getD "")))

/-- Phrases the loader reads in the environment `environ`, in scan order. -/
def phrasesOf (environ : List String) : List String :=
  (entriesOf environ environ).map Prod.snd

/-- The loop of `loadFromEnvironment` seen on the pairs of name and phrase it reads. -/
def loadEntries (P : Prims) : List (String × String) → localKeyStore → Nat → LoadResult
  | [], lk, numMnemonics => loadFromEnvironment.done lk numMnemonics
  | (key, envMnemonic) :: rest, lk, numMnemonics =>
    if envMnemonic = "" then loadFromEnvironment.done lk numMnemonics
    else
      match (lk.addMnemonic P envMnemonic).err with
      | some err =>
        ⟨(lk.addMnemonic P envMnemonic).lk,
          (lk.addMnemonic P envMnemonic).trace ++
            [.Log .Error ("fatal error in envMnemonic load, idx key:" ++ key ++
                ", err:" ++ err.Error),
              .Exit 1],
          .exited 1⟩
      | none =>
        (loadEntries P rest (lk.addMnemonic P envMnemonic).lk (numMnemonics + 1)).after
          (lk.addMnemonic P envMnemonic).trace

/-- Phrases handed to `mnemonic.ToPrivateKey` during a run, in call order. -/
def derivedPhrases : List Event → List String
  | [] => []
  | .ToPrivateKey p :: t => p :: derivedPhrases t
  | _ :: t => derivedPhrases t

/-- Stores `addMnemonic` can produce from the empty map of `NewLocalKeyStore`. -/
inductive Reachable (P : Prims) : localKeyStore → Prop where
  | empty : Reachable P ⟨∅⟩
  | add (lk : localKeyStore) (mnemonicPhrase : String) :
      Reachable P lk → Reachable P (lk.addMnemonic P mnemonicPhrase).lk

/-! ## The read methods as computations on the receiver -/

/-- Method `HasAccount` as a computation on the receiver: it reads the store and
replies. -/
def localKeyStore.HasAccountM (publicAddress : String) : StateM localKeyStore Bool := do
  let lk ← get
  return (lk.keys.lookup publicAddress).isSome

/-- The scan of `FindFirstSigner` as a computation on the receiver, calling
`HasAccount` for each address. -/
def localKeyStore.scanAddressesM :
    List String → StateM localKeyStore (String × Option GoError)
  | [] => return ("", some (.errorString "no signer found for any of the addresses"))
  | address :: rest => do
    let found ← localKeyStore.HasAccountM address
    if found then return (address, none) else localKeyStore.scanAddressesM rest

/-- Method `FindFirstSigner` as a computation on the receiver. -/
def localKeyStore.FindFirstSignerM (rangeOrder : List String) (addresses : List String) :
    StateM localKeyStore (String × Option GoError) := do
  match (if addresses.length = 0 then rangeOrder.head? else none) with
  | some addr => return (addr, none)
  | none => localKeyStore.scanAddressesM addresses

/-- Method `SignWithAccount` as a computation on the receiver. -/
def localKeyStore.SignWithAccountM (P : Prims) (tx : Transaction) (publicAddress : String) :
    StateM localKeyStore SignOutcome := do
  let lk ← get
  match lk.keys.lookup publicAddress with
  | none =>
    return ⟨⟨"", [], some (.errorString ("key not found for address " ++ publicAddress))⟩, []⟩
  | some key => return ⟨P.SignTransaction key tx, [.SignTransaction key tx]⟩

/-! ## What the logger receives -/

/-- Records handed to the logger during a run, in order. -/
def logged : List Event → List (Level × String)
  | [] => []
  | .Log level msg :: t => (level, msg) :: logged t
  | _ :: t => logged t

/-- What the derivation of a phrase shows apart from the key material: the derived
address, or the error of the primitive that failed. -/
def deriveView (P : Prims) (mnemonicPhrase : String) : GoError ⊕ String :=
  match P.ToPrivateKey mnemonicPhrase with
  | .error err => .inl err
  | .ok key =>
    match P.AccountFromPrivateKey key with
    | .error err => .inl err
    | .ok account => .inr account.Address

/-- For each pair of name and phrase the loader reads: the name of the variable, and
for a non-empty phrase what its derivation shows.  Neither the phrase nor the private
key is part of it. -/
def entryViews (P : Prims) (environ : List String) : List (String × Option (GoError ⊕ String)) :=
  (entriesOf environ environ).map
    (fun e => (e.1, if e.2 = "" then none else some (deriveView P e.2)))

/-- The log of a load computed from the views of the entries and the count so far. -/
def logFromViews : List (String × Option (GoError ⊕ String)) → Nat → List (Level × String)
  | [], numMnemonics => [(.Debug, "loaded " ++ toString numMnemonics ++ " mnemonics")]
  | (_, none) :: _, numMnemonics =>
    [(.Debug, "loaded " ++ toString numMnemonics ++ " mnemonics")]
  | (key, some (.inl err)) :: _, _ =>
    [(.Error, "fatal error in envMnemonic load, idx key:" ++ key ++ ", err:" ++
      (fmt.ErrorfW "failed to add mnemonic: " err).Error)]
  | (_, some (.inr address)) :: rest, numMnemonics =>
    (.Info, "Mnemonics available for account:" ++ address) ::
      logFromViews rest (numMnemonics + 1)

/-! ## A small instance of the primitives, to evaluate the definitions -/

/-- A phrase is accepted when it has at least three characters, all of them lower-case
letters or blanks; the key is the list of its character codes. -/
def demoToPrivateKey (p : String) : Except GoError PrivateKey :=
  if p.data.all (fun c => c.isLower || c == ' ') && decide (3 ≤ p.data.length) then
    .ok (p.data.map Char.toNat)
  else .error (.errorString "invalid mnemonic")

/-- Keys longer than eight bytes are refused; the address is built from the first byte. -/
def demoAccountFromPrivateKey (k : PrivateKey) : Except GoError Account :=
  if 8 < k.length then .error (.errorString "invalid key length")
  else .ok ⟨"ADDR-" ++ String.mk ((k.take 1).map Char.ofNat)⟩

/-- Signing refuses the empty transaction. -/
def demoSignTransaction (k : PrivateKey) (tx : Transaction) : Signed :=
  if tx = [] then ⟨"", [], some (.errorString "empty transaction")⟩
  else ⟨"TXID", k ++ tx, none⟩

/-- The demonstration primitives. -/
def demoPrims : Prims :=
  ⟨demoToPrivateKey, demoAccountFromPrivateKey, demoSignTransaction⟩

/-- A store holding the two keys of the phrases `abc` and `bcd`. -/
def demoStore : localKeyStore :=
  addAll demoPrims ⟨∅⟩ ["abc", "bcd"]

/-! ## Lookup and selection -/

theorem hasAccount_iff_mem (lk : localKeyStore) (a : String) :
    lk.HasAccount a = true ↔ a ∈ lk.keys := by
  unfold localKeyStore.HasAccount
  exact Finmap.lookup_isSome

theorem hasAccount_false_iff (lk : localKeyStore) (a : String) :
    lk.HasAccount a = false ↔ a ∉ lk.keys := by
  rw [← hasAccount_iff_mem]
  cases lk.HasAccount a <;> simp

theorem findFirstSigner_cons (lk : localKeyStore) (order : List String) (a : String)
    (l : List String) : lk.FindFirstSigner order (a :: l) = lk.scanAddresses (a :: l) := by
  simp [localKeyStore.FindFirstSigner]

theorem findFirstSigner_nil (lk : localKeyStore) (order : List String) :
    lk.FindFirstSigner order [] =
      match order.head? with
      | some addr => (addr, none)
      | none => ("", some (.errorString "no signer found for any of the addresses")) := by
  cases order <;> simp [localKeyStore.FindFirstSigner, localKeyStore.scanAddresses]

theorem scanAddresses_congr (lk lk' : localKeyStore) (l : List String)
    (h : ∀ d ∈ l, lk'.HasAccount d = lk.HasAccount d) :
    lk'.scanAddresses l = lk.scanAddresses l := by
  induction l with
  | nil => rfl
  | cons a t ih =>
    have ha : lk'.HasAccount a = lk.HasAccount a := h a (List.mem_cons_self a t)
    have ht : ∀ d ∈ t, lk'.HasAccount d = lk.HasAccount d :=
      fun d hd => h d (List.mem_cons_of_mem a hd)
    simp only [localKeyStore.scanAddresses, ha, ih ht]

theorem scanAddresses_first (lk : localKeyStore) (l : List String)
    (h : ∃ c ∈ l, lk.HasAccount c = true) :
    ∃ (i : Nat) (c : String), l[i]? = some c ∧ lk.scanAddresses l = (c, none) ∧ lk.HasAccount c = true ∧
      ∀ (j : Nat) (d : String), j < i → l[j]? = some d → lk.HasAccount d = false := by
  induction l with
  | nil =>
    obtain ⟨c, hc, _⟩ := h
    cases hc
  | cons a t ih =>
    by_cases ha : lk.HasAccount a = true
    · refine ⟨0, a, by simp, ?_, ha, ?_⟩
      · simp [localKeyStore.scanAddresses, ha]
      · intro j d hj
        omega
    · have hex : ∃ c ∈ t, lk.HasAccount c = true := by
        obtain ⟨c, hc, hcc⟩ := h
        rcases List.mem_cons.mp hc with rfl | hct
        · exact absurd hcc ha
        · exact ⟨c, hct, hcc⟩
      obtain ⟨i, c, hic, hscan, hcc, hbefore⟩ := ih hex
      refine ⟨i + 1, c, by simpa using hic, ?_, hcc, ?_⟩
      · simp [localKeyStore.scanAddresses, ha, hscan]
      · intro j d hj hjd
        cases j with
        | zero =>
          simp only [List.getElem?_cons_zero, Option.some.injEq] at hjd
          subst hjd
          simpa using ha
        | succ k =>
          exact hbefore k d (by omega) (by simpa using hjd)

theorem scanAddresses_error_iff (lk : localKeyStore) (l : List String) :
    (lk.scanAddresses l).2.isSome = true ↔ ∀ d ∈ l, d ∉ lk.keys := by
  induction l with
  | nil => simp [localKeyStore.scanAddresses]
  | cons a t ih =>
    by_cases ha : lk.HasAccount a = true
    · have hm : a ∈ lk.keys := (hasAccount_iff_mem lk a).mp ha
      simp [localKeyStore.scanAddresses, ha, hm]
    · have hm : a ∉ lk.keys := fun hmem => ha ((hasAccount_iff_mem lk a).mpr hmem)
      simp [localKeyStore.scanAddresses, ha, hm, ih]

theorem scanAddresses_error_value (lk : localKeyStore) (l : List String)
    (h : (lk.scanAddresses l).2.isSome = true) :
    lk.scanAddresses l =
      ("", some (.errorString "no signer found for any of the addresses")) := by
  induction l with
  | nil => rfl
  | cons a t ih =>
    by_cases ha : lk.HasAccount a = true
    · simp [localKeyStore.scanAddresses, ha] at h
    · simp only [localKeyStore.scanAddresses, ha] at h ⊢
      exact ih h

theorem rangeOrder_nil_iff (m : KeyMap) (order : List String) (h : IsRangeOrder m order) :
    order = [] ↔ m = ∅ := by
  constructor
  · intro ho
    apply Finmap.ext_lookup
    intro x
    have hx : x ∉ m := by
      intro hm
      have : x ∈ order.toFinset := by rw [h.2]; exact Finmap.mem_keys.mpr hm
      simp [ho] at this
    rw [Finmap.lookup_eq_none.mpr hx]
    exact (Finmap.lookup_eq_none.mpr (@Finmap.not_mem_empty String (fun _ => PrivateKey) x)).symm
  · intro hm
    have hk : order.toFinset = ∅ := by rw [h.2, hm]; exact Finmap.keys_empty
    exact (List.toFinset_eq_empty_iff order).mp hk

/-- C1: with a non-empty candidate list of which at least one candidate is held,
`FindFirstSigner` returns without error the candidate at the smallest index whose
account is held; every earlier candidate is absent, and any store that agrees on the
candidates gives the same answer, whatever else it holds and whatever the order of
its map. -/
theorem C1_findFirstSigner_first_present (lk : localKeyStore)
    (rangeOrder candidates : List String) (hne : candidates ≠ [])
    (hex : ∃ c ∈ candidates, lk.HasAccount c = true) :
    ∃ (i : Nat) (c : String), candidates[i]? = some c ∧
      lk.FindFirstSigner rangeOrder candidates = (c, none) ∧
      lk.HasAccount c = true ∧
      (∀ (j : Nat) (d : String), j < i → candidates[j]? = some d → lk.HasAccount d = false) ∧
      ∀ (lk' : localKeyStore) (order' : List String),
        (∀ d ∈ candidates, lk'.HasAccount d = lk.HasAccount d) →
        lk'.FindFirstSigner order' candidates = (c, none) := by
  obtain ⟨i, c, hic, hscan, hcc, hbefore⟩ := scanAddresses_first lk candidates hex
  cases candidates with
  | nil => exact absurd rfl hne
  | cons a t =>
    refine ⟨i, c, hic, ?_, hcc, hbefore, ?_⟩
    · rw [findFirstSigner_cons, hscan]
    · intro lk' order' hagree
      rw [findFirstSigner_cons, scanAddresses_congr lk lk' (a :: t) hagree, hscan]

/-- Witness of C1: the store holding `ADDR-a` and `ADDR-b`, asked for
`ADDR-z, ADDR-b, ADDR-a`. -/
theorem C1_findFirstSigner_first_present_witness :
    ∃ (i : Nat) (c : String), ["ADDR-z", "ADDR-b", "ADDR-a"][i]? = some c ∧
      demoStore.FindFirstSigner [] ["ADDR-z", "ADDR-b", "ADDR-a"] = (c, none) ∧
      demoStore.HasAccount c = true ∧
      (∀ (j : Nat) (d : String), j < i → ["ADDR-z", "ADDR-b", "ADDR-a"][j]? = some d →
        demoStore.HasAccount d = false) ∧
      ∀ (lk' : localKeyStore) (order' : List String),
        (∀ d ∈ ["ADDR-z", "ADDR-b", "ADDR-a"], lk'.HasAccount d = demoStore.HasAccount d) →
        lk'.FindFirstSigner order' ["ADDR-z", "ADDR-b", "ADDR-a"] = (c, none) :=
  C1_findFirstSigner_first_present demoStore [] ["ADDR-z", "ADDR-b", "ADDR-a"]
    (by decide) ⟨"ADDR-b", by decide, by decide⟩

/-- C2: `FindFirstSigner` returns an error exactly when the list is non-empty and
none of its elements is a key of the map, or the list and the map are both empty;
the error is the no-signer-found error and it comes with the empty identity. -/
theorem C2_findFirstSigner_error_iff (lk : localKeyStore) (rangeOrder candidates : List String)
    (horder : IsRangeOrder lk.keys rangeOrder) :
    ((lk.FindFirstSigner rangeOrder candidates).2.isSome = true ↔
      (candidates ≠ [] ∧ ∀ c ∈ candidates, c ∉ lk.keys) ∨
        (candidates = [] ∧ lk.keys = ∅)) ∧
    ((lk.FindFirstSigner rangeOrder candidates).2.isSome = true →
      lk.FindFirstSigner rangeOrder candidates =
        ("", some (.errorString "no signer found for any of the addresses"))) := by
  cases candidates with
  | cons a t =>
    rw [findFirstSigner_cons]
    refine ⟨?_, scanAddresses_error_value lk (a :: t)⟩
    rw [scanAddresses_error_iff]
    simp
  | nil =>
    rw [findFirstSigner_nil]
    cases rangeOrder with
    | nil =>
      have hempty : lk.keys = ∅ := (rangeOrder_nil_iff lk.keys [] horder).mp rfl
      simp [hempty]
    | cons k ks =>
      have hne : lk.keys ≠ ∅ := fun hm =>
        List.cons_ne_nil k ks ((rangeOrder_nil_iff lk.keys (k :: ks) horder).mpr hm)
      simp [hne]

/-- Witness of C2: the two-key store, enumerated as `ADDR-b, ADDR-a`, asked for two
absent candidates. -/
theorem C2_findFirstSigner_error_iff_witness :
    IsRangeOrder demoStore.keys ["ADDR-b", "ADDR-a"] ∧
    (((demoStore.FindFirstSigner ["ADDR-b", "ADDR-a"] ["ADDR-y", "ADDR-z"]).2.isSome = true ↔
      (["ADDR-y", "ADDR-z"] ≠ [] ∧ ∀ c ∈ ["ADDR-y", "ADDR-z"], c ∉ demoStore.keys) ∨
        (["ADDR-y", "ADDR-z"] = [] ∧ demoStore.keys = ∅)) ∧
    ((demoStore.FindFirstSigner ["ADDR-b", "ADDR-a"] ["ADDR-y", "ADDR-z"]).2.isSome = true →
      demoStore.FindFirstSigner ["ADDR-b", "ADDR-a"] ["ADDR-y", "ADDR-z"] =
        ("", some (.errorString "no signer found for any of the addresses")))) :=
  ⟨by decide, C2_findFirstSigner_error_iff demoStore ["ADDR-b", "ADDR-a"]
    ["ADDR-y", "ADDR-z"] (by decide)⟩

/-! ## Signing -/

theorem containsChars_self (sub : List Char) : strings.containsChars sub sub = true := by
  cases sub with
  | nil => rfl
  | cons c s =>
    simp only [strings.containsChars, Bool.or_eq_true]
    exact Or.inl (List.isPrefixOf_iff_prefix.mpr (List.prefix_refl (c :: s)))

theorem containsChars_append_right (pre sub : List Char) :
    strings.containsChars sub (pre ++ sub) = true := by
  induction pre with
  | nil => exact containsChars_self sub
  | cons d t ih =>
    simp only [List.cons_append, strings.containsChars, Bool.or_eq_true]
    exact Or.inr ih

theorem contains_append_right (text s : String) : strings.Contains (text ++ s) s = true := by
  unfold strings.Contains
  rw [String.data_append]
  exact containsChars_append_right text.data s.data

/-- C3: for an identity the store does not hold, `SignWithAccount` returns the error
"key not found for address <identity>", whose text names the identity, with an empty
transaction id and no signature bytes; its trace is empty, so the signing primitive is
not invoked. -/
theorem C3_signWithAccount_key_not_found (P : Prims) (lk : localKeyStore) (tx : Transaction)
    (identity : String) (habsent : lk.HasAccount identity = false) :
    lk.SignWithAccount P tx identity =
        ⟨⟨"", [], some (.errorString ("key not found for address " ++ identity))⟩, []⟩ ∧
      strings.Contains ("key not found for address " ++ identity) identity = true := by
  refine ⟨?_, contains_append_right _ _⟩
  have hnone : lk.keys.lookup identity = none := by
    unfold localKeyStore.HasAccount at habsent
    cases hl : lk.keys.lookup identity with
    | none => rfl
    | some k => rw [hl] at habsent; cases habsent
  unfold localKeyStore.SignWithAccount
  rw [hnone]

/-- Witness of C3: the two-key store asked to sign for `ADDR-z`. -/
theorem C3_signWithAccount_key_not_found_witness :
    demoStore.HasAccount "ADDR-z" = false ∧
    (demoStore.SignWithAccount demoPrims [1, 2] "ADDR-z" =
        ⟨⟨"", [], some (.errorString ("key not found for address " ++ "ADDR-z"))⟩, []⟩ ∧
      strings.Contains ("key not found for address " ++ "ADDR-z") "ADDR-z" = true) :=
  ⟨by decide, C3_signWithAccount_key_not_found demoPrims demoStore [1, 2] "ADDR-z" (by decide)⟩

/-- C4, as stated, fails: the store holds `ADDR-a`, the signing primitive fails on the
empty transaction with "empty transaction", and `SignWithAccount` returns that very
error: it wraps nothing and its text does not name the identity. -/
theorem C4_counterexample :
    demoStore.keys.lookup "ADDR-a" = some [97, 98, 99] ∧
    (demoPrims.SignTransaction [97, 98, 99] []).err =
      some (.errorString "empty transaction") ∧
    (demoStore.SignWithAccount demoPrims [] "ADDR-a").result.err =
      some (.errorString "empty transaction") ∧
    (GoError.errorString "empty transaction").Unwrap = none ∧
    strings.Contains (GoError.errorString "empty transaction").Error "ADDR-a" = false := by
  decide

/-- C4, amended: when the identity is held and the signing primitive fails,
`SignWithAccount` returns the error of the primitive itself, with no wrapping and no
added text. -/
theorem C4_signWithAccount_error_unchanged (P : Prims) (lk : localKeyStore)
    (tx : Transaction) (identity : String) (key : PrivateKey) (e : GoError)
    (hheld : lk.keys.lookup identity = some key)
    (hfail : (P.SignTransaction key tx).err = some e) :
    (lk.SignWithAccount P tx identity).result.err = some e := by
  unfold localKeyStore.SignWithAccount
  rw [hheld]
  exact hfail

/-- Witness of C4 amended: signing the empty transaction for `ADDR-a`. -/
theorem C4_signWithAccount_error_unchanged_witness :
    (demoStore.SignWithAccount demoPrims [] "ADDR-a").result.err =
      some (.errorString "empty transaction") :=
  C4_signWithAccount_error_unchanged demoPrims demoStore [] "ADDR-a" [97, 98, 99]
    (.errorString "empty transaction") (by decide) (by decide)

/-- C10: on a non-empty map, `FindFirstSigner` with no candidate returns without error
the key the enumeration of the map yields first, and that key is held. -/
theorem C10_findFirstSigner_no_candidates (lk : localKeyStore) (rangeOrder : List String)
    (horder : IsRangeOrder lk.keys rangeOrder) (hne : lk.keys ≠ ∅) :
    ∃ a : String, rangeOrder.head? = some a ∧
      lk.FindFirstSigner rangeOrder [] = (a, none) ∧
      lk.HasAccount a = true := by
  cases rangeOrder with
  | nil => exact absurd ((rangeOrder_nil_iff lk.keys [] horder).mp rfl) hne
  | cons k ks =>
    refine ⟨k, rfl, ?_, ?_⟩
    · rw [findFirstSigner_nil]
      rfl
    · rw [hasAccount_iff_mem, ← Finmap.mem_keys, ← horder.2]
      simp

/-- Witness of C10: the two-key store enumerated as `ADDR-b, ADDR-a`. -/
theorem C10_findFirstSigner_no_candidates_witness :
    IsRangeOrder demoStore.keys ["ADDR-b", "ADDR-a"] ∧ demoStore.keys ≠ ∅ ∧
    ∃ a : String, ["ADDR-b", "ADDR-a"].head? = some a ∧
      demoStore.FindFirstSigner ["ADDR-b", "ADDR-a"] [] = (a, none) ∧
      demoStore.HasAccount a = true :=
  ⟨by decide, by decide,
    C10_findFirstSigner_no_candidates demoStore ["ADDR-b", "ADDR-a"] (by decide) (by decide)⟩

/-! ## Loading -/

theorem indexByteChars_le (c : Char) (l : List Char) :
    strings.indexByteChars c l ≤ (l.length : Int) := by
  induction l with
  | nil => simp [strings.indexByteChars]
  | cons d t ih =>
    simp only [strings.indexByteChars, List.length_cons]
    split_ifs <;> push_cast <;> omega

theorem indexByteChars_nonneg (c : Char) (l : List Char) (h : c ∈ l) :
    0 ≤ strings.indexByteChars c l := by
  induction l with
  | nil => cases h
  | cons d t ih =>
    simp only [strings.indexByteChars]
    by_cases hd : d = c
    · simp [hd]
    · have ht : c ∈ t := by
        rcases List.mem_cons.mp h with rfl | ht
        · exact absurd rfl hd
        · exact ht
      have := ih ht
      simp only [hd, if_false]
      split_ifs <;> omega

theorem entryName_isSome (e : String) (h : '=' ∈ e.data) :
    ∃ key, sliceTo e (strings.IndexByte e '=') = some key := by
  unfold sliceTo strings.IndexByte
  rw [if_pos ⟨indexByteChars_nonneg '=' e.data h, indexByteChars_le '=' e.data⟩]
  exact ⟨_, rfl⟩

theorem loop_eq_loadEntries (P : Prims) (environ rest : List String)
    (hform : NameValueForm rest) (lk : localKeyStore) (n : Nat) :
    loadFromEnvironment.loop P environ rest lk n =
      loadEntries P (entriesOf environ rest) lk n := by
  induction rest generalizing lk n with
  | nil => rfl
  | cons e t ih =>
    have ht : NameValueForm t := fun x hx => hform x (List.mem_cons_of_mem e hx)
    by_cases hc : strings.Contains e "_MNEMONIC" = true
    · obtain ⟨key, hkey⟩ := entryName_isSome e (hform e (List.mem_cons_self e t))
      have hname : os.entryName e = some key := hkey
      have hentries : entriesOf environ (e :: t) =
          (key, os.Getenv environ key) :: entriesOf environ t := by
        simp [entriesOf, List.filter_cons, hc, hname]
      rw [hentries]
      simp only [loadFromEnvironment.loop, hc, hkey, loadEntries, Bool.not_true]
      by_cases hempty : os.Getenv environ key = ""
      · simp [hempty]
      · simp only [hempty, if_false]
        cases herr : (lk.addMnemonic P (os.Getenv environ key)).err with
        | some err => simp
        | none => simp [ih ht]
    · have hentries : entriesOf environ (e :: t) = entriesOf environ t := by
        simp [entriesOf, List.filter_cons, hc]
      rw [hentries]
      simp only [loadFromEnvironment.loop, hc]
      simpa using ih ht lk n

theorem addMnemonic_of_derive (P : Prims) (lk : localKeyStore) (p a : String)
    (k : PrivateKey) (h : deriveEntry P p = some (a, k)) :
    lk.addMnemonic P p =
      ⟨none, ⟨lk.keys.insert a k⟩,
        [.ToPrivateKey p, .AccountFromPrivateKey k,
          misc.Infof ("Mnemonics available for account:" ++ a)]⟩ := by
  cases hk : P.ToPrivateKey p with
  | error e => simp [deriveEntry, hk] at h
  | ok key =>
    cases ha : P.AccountFromPrivateKey key with
    | error e => simp [deriveEntry, hk, ha] at h
    | ok account =>
      simp only [deriveEntry, hk, ha, Option.some.injEq, Prod.mk.injEq] at h
      obtain ⟨h1, h2⟩ := h
      subst h1 h2
      simp only [localKeyStore.addMnemonic, hk, ha]

theorem addMnemonic_of_fail (P : Prims) (lk : localKeyStore) (p : String)
    (h : deriveEntry P p = none) :
    ∃ e, (lk.addMnemonic P p).err = some (fmt.ErrorfW "failed to add mnemonic: " e) ∧
      (lk.addMnemonic P p).lk = lk ∧
      ((lk.addMnemonic P p).trace = [.ToPrivateKey p] ∨
        ∃ key, (lk.addMnemonic P p).trace = [.ToPrivateKey p, .AccountFromPrivateKey key]) := by
  cases hk : P.ToPrivateKey p with
  | error e =>
    refine ⟨e, ?_, ?_, Or.inl ?_⟩ <;> simp only [localKeyStore.addMnemonic, hk]
  | ok key =>
    cases ha : P.AccountFromPrivateKey key with
    | error e =>
      refine ⟨e, ?_, ?_, Or.inr ⟨key, ?_⟩⟩ <;> simp only [localKeyStore.addMnemonic, hk, ha]
    | ok account => simp [deriveEntry, hk, ha] at h

theorem derivedPhrases_append (a b : List Event) :
    derivedPhrases (a ++ b) = derivedPhrases a ++ derivedPhrases b := by
  induction a with
  | nil => rfl
  | cons e t ih => cases e <;> simp [derivedPhrases, ih]

theorem derivedPhrases_addMnemonic (P : Prims) (lk : localKeyStore) (p : String) :
    derivedPhrases (lk.addMnemonic P p).trace = [p] := by
  cases hk : P.ToPrivateKey p with
  | error e => simp [localKeyStore.addMnemonic, hk, derivedPhrases]
  | ok key =>
    cases ha : P.AccountFromPrivateKey key with
    | error e => simp [localKeyStore.addMnemonic, hk, ha, derivedPhrases]
    | ok account => simp [localKeyStore.addMnemonic, hk, ha, derivedPhrases, misc.Infof]

theorem derivedPhrases_addAllTrace (P : Prims) (lk : localKeyStore) (xs : List String) :
    derivedPhrases (addAllTrace P lk xs) = xs := by
  induction xs generalizing lk with
  | nil => rfl
  | cons p t ih =>
    simp [addAllTrace, derivedPhrases_append, derivedPhrases_addMnemonic, ih]

theorem addAll_cons (P : Prims) (lk : localKeyStore) (p : String) (ps : List String) :
    addAll P lk (p :: ps) = addAll P (lk.addMnemonic P p).lk ps := rfl

theorem after_after (a b : List Event) (r : LoadResult) :
    (r.after b).after a = r.after (a ++ b) := by
  simp [LoadResult.after]

theorem after_nil (r : LoadResult) : r.after [] = r := rfl

theorem loadEntries_cons_ok (P : Prims) (key p : String) (rest : List (String × String))
    (lk : localKeyStore) (n : Nat) (hne : p ≠ "") (herr : (lk.addMnemonic P p).err = none) :
    loadEntries P ((key, p) :: rest) lk n =
      (loadEntries P rest (lk.addMnemonic P p).lk (n + 1)).after (lk.addMnemonic P p).trace := by
  simp only [loadEntries, if_neg hne, herr]

theorem loadEntries_valid_prefix (P : Prims) (es rest : List (String × String))
    (hvalid : ∀ e ∈ es, e.2 ≠ "" ∧ (deriveEntry P e.2).isSome = true)
    (lk : localKeyStore) (n : Nat) :
    loadEntries P (es ++ rest) lk n =
      (loadEntries P rest (addAll P lk (es.map Prod.snd)) (n + es.length)).after
        (addAllTrace P lk (es.map Prod.snd)) := by
  induction es generalizing lk n with
  | nil => rfl
  | cons e t ih =>
    obtain ⟨key, p⟩ := e
    obtain ⟨hne, hsome⟩ := hvalid (key, p) (List.mem_cons_self _ t)
    have ht : ∀ e ∈ t, e.2 ≠ "" ∧ (deriveEntry P e.2).isSome = true :=
      fun x hx => hvalid x (List.mem_cons_of_mem _ hx)
    obtain ⟨⟨a, k⟩, hd⟩ := Option.isSome_iff_exists.mp hsome
    have hadd := addMnemonic_of_derive P lk p a k hd
    have herr : (lk.addMnemonic P p).err = none := by rw [hadd]
    rw [List.cons_append, loadEntries_cons_ok P key p (t ++ rest) lk n hne herr, ih ht,
      after_after]
    simp only [List.map_cons, addAll_cons, addAllTrace, List.length_cons]
    congr 2
    omega

theorem addMnemonic_mem_keys (P : Prims) (lk : localKeyStore) (p a : String)
    (h : a ∈ (lk.addMnemonic P p).lk.keys) :
    a ∈ lk.keys ∨ ∃ k, deriveEntry P p = some (a, k) := by
  cases hd : deriveEntry P p with
  | none =>
    obtain ⟨e, _, hlk, _⟩ := addMnemonic_of_fail P lk p hd
    rw [hlk] at h
    exact Or.inl h
  | some ak =>
    obtain ⟨b, k⟩ := ak
    rw [addMnemonic_of_derive P lk p b k hd] at h
    rcases Finmap.mem_insert.mp h with rfl | hm
    · exact Or.inr ⟨k, rfl⟩
    · exact Or.inl hm

theorem addAll_mem_keys (P : Prims) (lk : localKeyStore) (xs : List String) (a : String)
    (h : a ∈ (addAll P lk xs).keys) :
    a ∈ lk.keys ∨ ∃ p ∈ xs, ∃ k, deriveEntry P p = some (a, k) := by
  induction xs generalizing lk with
  | nil => exact Or.inl h
  | cons p t ih =>
    rw [addAll_cons] at h
    rcases ih _ h with h1 | ⟨q, hq, k, hk⟩
    · rcases addMnemonic_mem_keys P lk p a h1 with h2 | ⟨k, hk⟩
      · exact Or.inl h2
      · exact Or.inr ⟨p, List.mem_cons_self p t, k, hk⟩
    · exact Or.inr ⟨q, List.mem_cons_of_mem p hq, k, hk⟩

theorem load_of_valid_then (P : Prims) (environ : List String) (lk : localKeyStore)
    (xs tail : List String) (hform : NameValueForm environ)
    (hseq : phrasesOf environ = xs ++ tail)
    (hvalid : ∀ p ∈ xs, p ≠ "" ∧ (deriveEntry P p).isSome = true) :
    ∃ rest : List (String × String), rest.map Prod.snd = tail ∧
      lk.loadFromEnvironment P environ =
        (loadEntries P rest (addAll P lk xs) xs.length).after (addAllTrace P lk xs) := by
  obtain ⟨es, rest, hes, hxs, hrest⟩ := List.map_eq_append_iff.mp hseq
  refine ⟨rest, hrest, ?_⟩
  have hv : ∀ e ∈ es, e.2 ≠ "" ∧ (deriveEntry P e.2).isSome = true := by
    intro e he
    apply hvalid
    rw [← hxs]
    exact List.mem_map_of_mem Prod.snd he
  unfold localKeyStore.loadFromEnvironment
  rw [loop_eq_loadEntries P environ environ hform, hes,
    loadEntries_valid_prefix P es rest hv, hxs]
  have hlen : es.length = xs.length := by rw [← hxs, List.length_map]
  rw [hlen, Nat.zero_add]

theorem loadEntries_stop (P : Prims) (key : String) (rest : List (String × String))
    (lk : localKeyStore) (n : Nat) :
    loadEntries P ((key, "") :: rest) lk n = loadFromEnvironment.done lk n := by
  simp [loadEntries]

theorem loadEntries_fatal (P : Prims) (key p : String) (rest : List (String × String))
    (lk : localKeyStore) (n : Nat) (err : GoError) (hne : p ≠ "")
    (herr : (lk.addMnemonic P p).err = some err) :
    loadEntries P ((key, p) :: rest) lk n =
      ⟨(lk.addMnemonic P p).lk,
        (lk.addMnemonic P p).trace ++
          [.Log .Error ("fatal error in envMnemonic load, idx key:" ++ key ++
              ", err:" ++ err.Error),
            .Exit 1],
        .exited 1⟩ := by
  simp only [loadEntries, if_neg hne, herr]

/-- C5: an empty phrase halts the load.  When the phrases read are `xs`, then the empty
phrase, then `ys`, with every phrase of `xs` non-empty and valid, the loader returns
with the store, the calls and the count of loading `xs` alone: only the phrases of `xs`
are derived, every environment whose phrases are exactly `xs` gives the same result,
and an identity is held afterwards only if it was held before or is derived from a
phrase of `xs`. -/
theorem C5_empty_phrase_halts (P : Prims) (environ xs ys : List String)
    (lk : localKeyStore) (hform : NameValueForm environ)
    (hseq : phrasesOf environ = xs ++ [""] ++ ys)
    (hvalid : ∀ p ∈ xs, p ≠ "" ∧ (deriveEntry P p).isSome = true) :
    lk.loadFromEnvironment P environ =
        ⟨addAll P lk xs,
          addAllTrace P lk xs ++
            [misc.Debugf ("loaded " ++ toString xs.length ++ " mnemonics")],
          .returned⟩ ∧
      derivedPhrases (lk.loadFromEnvironment P environ).trace = xs ∧
      (∀ environ' : List String, NameValueForm environ' → phrasesOf environ' = xs →
        lk.loadFromEnvironment P environ' = lk.loadFromEnvironment P environ) ∧
      ∀ a : String, (lk.loadFromEnvironment P environ).lk.HasAccount a = true →
        lk.HasAccount a = true ∨ ∃ p ∈ xs, ∃ k, deriveEntry P p = some (a, k) := by
  have hmain : lk.loadFromEnvironment P environ =
      ⟨addAll P lk xs,
        addAllTrace P lk xs ++
          [misc.Debugf ("loaded " ++ toString xs.length ++ " mnemonics")],
        .returned⟩ := by
    rw [List.append_assoc] at hseq
    obtain ⟨rest, hrest, hload⟩ := load_of_valid_then P environ lk xs _ hform hseq hvalid
    cases rest with
    | nil => simp at hrest
    | cons e t =>
      obtain ⟨key, q⟩ := e
      have hq : q = "" := by
        simp only [List.map_cons, List.singleton_append, List.cons.injEq] at hrest
        exact hrest.1
      subst hq
      rw [hload, loadEntries_stop]
      rfl
  refine ⟨hmain, ?_, ?_, ?_⟩
  · rw [hmain]
    simp [derivedPhrases_append, derivedPhrases_addAllTrace, derivedPhrases, misc.Debugf]
  · intro environ' hform' hseq'
    have hseq2 : phrasesOf environ' = xs ++ [] := by rw [hseq', List.append_nil]
    obtain ⟨rest, hrest, hload⟩ := load_of_valid_then P environ' lk xs _ hform' hseq2 hvalid
    have hnil : rest = [] := List.map_eq_nil_iff.mp hrest
    subst hnil
    rw [hload, hmain]
    rfl
  · intro a ha
    rw [hmain] at ha
    rcases addAll_mem_keys P lk xs a ((hasAccount_iff_mem _ a).mp ha) with h1 | h2
    · exact Or.inl ((hasAccount_iff_mem lk a).mpr h1)
    · exact Or.inr h2

/-- Witness of C5: phrase `abc`, then an empty slot, then phrase `cde`. -/
theorem C5_empty_phrase_halts_witness :
    (localKeyStore.mk ∅).loadFromEnvironment demoPrims
          ["HOME=/root", "A_MNEMONIC=abc", "B_MNEMONIC=", "C_MNEMONIC=cde"] =
        ⟨addAll demoPrims ⟨∅⟩ ["abc"],
          addAllTrace demoPrims ⟨∅⟩ ["abc"] ++
            [misc.Debugf ("loaded " ++ toString ["abc"].length ++ " mnemonics")],
          .returned⟩ ∧
      derivedPhrases ((localKeyStore.mk ∅).loadFromEnvironment demoPrims
          ["HOME=/root", "A_MNEMONIC=abc", "B_MNEMONIC=", "C_MNEMONIC=cde"]).trace =
        ["abc"] ∧
      (∀ environ' : List String, NameValueForm environ' → phrasesOf environ' = ["abc"] →
        (localKeyStore.mk ∅).loadFromEnvironment demoPrims environ' =
          (localKeyStore.mk ∅).loadFromEnvironment demoPrims
            ["HOME=/root", "A_MNEMONIC=abc", "B_MNEMONIC=", "C_MNEMONIC=cde"]) ∧
      ∀ a : String, ((localKeyStore.mk ∅).loadFromEnvironment demoPrims
          ["HOME=/root", "A_MNEMONIC=abc", "B_MNEMONIC=", "C_MNEMONIC=cde"]).lk.HasAccount a =
            true →
        (localKeyStore.mk ∅).HasAccount a = true ∨
          ∃ p ∈ ["abc"], ∃ k, deriveEntry demoPrims p = some (a, k) :=
  C5_empty_phrase_halts demoPrims
    ["HOME=/root", "A_MNEMONIC=abc", "B_MNEMONIC=", "C_MNEMONIC=cde"] ["abc"] ["cde"] ⟨∅⟩
    (by decide) (by decide) (by decide)

/-- C8: a derivation failure is fatal.  When the phrases read are `xs`, then `bad`, then
`ys`, with every phrase of `xs` non-empty and valid and `bad` non-empty and failing a
derivation, `addMnemonic` on `bad` returns a wrapped error and leaves any store as it
was; the loader ends in `os.Exit(1)` right after logging the error for the entry of
`bad`, the store is the one after `xs`, and the phrases derived are `xs` and `bad`
only. -/
theorem C8_derivation_failure_is_fatal (P : Prims) (environ xs ys : List String)
    (bad : String) (lk : localKeyStore) (hform : NameValueForm environ)
    (hseq : phrasesOf environ = xs ++ [bad] ++ ys)
    (hvalid : ∀ p ∈ xs, p ≠ "" ∧ (deriveEntry P p).isSome = true)
    (hbad : bad ≠ "") (hfail : deriveEntry P bad = none) :
    (∀ st : localKeyStore, ∃ e,
        (st.addMnemonic P bad).err = some (fmt.ErrorfW "failed to add mnemonic: " e) ∧
        (st.addMnemonic P bad).lk = st) ∧
      (lk.loadFromEnvironment P environ).outcome = .exited 1 ∧
      (lk.loadFromEnvironment P environ).lk = addAll P lk xs ∧
      derivedPhrases (lk.loadFromEnvironment P environ).trace = xs ++ [bad] ∧
      ∃ key err, (key, bad) ∈ entriesOf environ environ ∧
        ((addAll P lk xs).addMnemonic P bad).err = some err ∧
        (lk.loadFromEnvironment P environ).trace =
          addAllTrace P lk xs ++ (((addAll P lk xs).addMnemonic P bad).trace ++
            [.Log .Error ("fatal error in envMnemonic load, idx key:" ++ key ++
                ", err:" ++ err.Error),
              .Exit 1]) := by
  have hadd : ∀ st : localKeyStore, ∃ e,
      (st.addMnemonic P bad).err = some (fmt.ErrorfW "failed to add mnemonic: " e) ∧
      (st.addMnemonic P bad).lk = st := by
    intro st
    obtain ⟨e, h1, h2, _⟩ := addMnemonic_of_fail P st bad hfail
    exact ⟨e, h1, h2⟩
  refine ⟨hadd, ?_⟩
  obtain ⟨es, rest, hes, hxs, hrest⟩ :=
    List.map_eq_append_iff.mp (show (entriesOf environ environ).map Prod.snd = xs ++ ([bad] ++ ys)
      by rw [← List.append_assoc]; exact hseq)
  cases rest with
  | nil => simp at hrest
  | cons e t =>
    obtain ⟨key, q⟩ := e
    have hq : q = bad := by
      simp only [List.map_cons, List.singleton_append, List.cons.injEq] at hrest
      exact hrest.1
    subst hq
    have hv : ∀ e ∈ es, e.2 ≠ "" ∧ (deriveEntry P e.2).isSome = true := by
      intro e he
      apply hvalid
      rw [← hxs]
      exact List.mem_map_of_mem Prod.snd he
    obtain ⟨e, herr, hlk⟩ := hadd (addAll P lk xs)
    have hload : lk.loadFromEnvironment P environ =
        ⟨addAll P lk xs,
          addAllTrace P lk xs ++ (((addAll P lk xs).addMnemonic P q).trace ++
            [.Log .Error ("fatal error in envMnemonic load, idx key:" ++ key ++
                ", err:" ++ (fmt.ErrorfW "failed to add mnemonic: " e).Error),
              .Exit 1]),
          .exited 1⟩ := by
      unfold localKeyStore.loadFromEnvironment
      rw [loop_eq_loadEntries P environ environ hform, hes,
        loadEntries_valid_prefix P es ((key, q) :: t) hv, hxs,
        loadEntries_fatal P key q t (addAll P lk xs) _ _ hbad herr, hlk]
      rfl
    rw [hload]
    refine ⟨rfl, rfl, ?_, key, _, ?_, herr, rfl⟩
    · simp [derivedPhrases_append, derivedPhrases_addAllTrace, derivedPhrases_addMnemonic,
        derivedPhrases]
    · rw [hes]
      simp

/-- Witness of C8: phrase `abc`, then the malformed `not valid!`, then phrase `cde`. -/
theorem C8_derivation_failure_is_fatal_witness :
    ((localKeyStore.mk ∅).loadFromEnvironment demoPrims
        ["A_MNEMONIC=abc", "B_MNEMONIC=not valid!", "C_MNEMONIC=cde"]).outcome = .exited 1 ∧
    ((localKeyStore.mk ∅).loadFromEnvironment demoPrims
        ["A_MNEMONIC=abc", "B_MNEMONIC=not valid!", "C_MNEMONIC=cde"]).lk =
      addAll demoPrims ⟨∅⟩ ["abc"] ∧
    derivedPhrases ((localKeyStore.mk ∅).loadFromEnvironment demoPrims
        ["A_MNEMONIC=abc", "B_MNEMONIC=not valid!", "C_MNEMONIC=cde"]).trace =
      ["abc"] ++ ["not valid!"] :=
  have h := C8_derivation_failure_is_fatal demoPrims
    ["A_MNEMONIC=abc", "B_MNEMONIC=not valid!", "C_MNEMONIC=cde"] ["abc"] ["cde"]
    "not valid!" ⟨∅⟩ (by decide) (by decide) (by decide) (by decide) (by decide)
  ⟨h.2.1, h.2.2.1, h.2.2.2.1⟩

/-! ## The map of the store -/

theorem deriveEntry_account (P : Prims) (p a : String) (k : PrivateKey)
    (h : deriveEntry P p = some (a, k)) : P.AccountFromPrivateKey k = .ok ⟨a⟩ := by
  cases hk : P.ToPrivateKey p with
  | error e => simp [deriveEntry, hk] at h
  | ok key =>
    cases ha : P.AccountFromPrivateKey key with
    | error e => simp [deriveEntry, hk, ha] at h
    | ok account =>
      simp only [deriveEntry, hk, ha, Option.some.injEq, Prod.mk.injEq] at h
      obtain ⟨h1, h2⟩ := h
      subst h1 h2
      exact ha

theorem addMnemonic_preserves (P : Prims) (lk : localKeyStore) (p : String)
    (hinv : ∀ a k, lk.keys.lookup a = some k → P.AccountFromPrivateKey k = .ok ⟨a⟩) :
    ∀ a k, (lk.addMnemonic P p).lk.keys.lookup a = some k →
      P.AccountFromPrivateKey k = .ok ⟨a⟩ := by
  intro a k hlook
  cases hd : deriveEntry P p with
  | none =>
    obtain ⟨e, _, hlk, _⟩ := addMnemonic_of_fail P lk p hd
    rw [hlk] at hlook
    exact hinv a k hlook
  | some bk =>
    obtain ⟨b, kb⟩ := bk
    rw [addMnemonic_of_derive P lk p b kb hd] at hlook
    by_cases hab : a = b
    · subst hab
      rw [Finmap.lookup_insert] at hlook
      cases hlook
      exact deriveEntry_account P p a k hd
    · rw [Finmap.lookup_insert_of_ne _ hab] at hlook
      exact hinv a k hlook

theorem reachable_invariant (P : Prims) (lk : localKeyStore) (h : Reachable P lk) :
    ∀ a k, lk.keys.lookup a = some k → P.AccountFromPrivateKey k = .ok ⟨a⟩ := by
  induction h with
  | empty =>
    intro a k hlook
    have hnone : (∅ : KeyMap).lookup a = none :=
      Finmap.lookup_eq_none.mpr (@Finmap.not_mem_empty String (fun _ => PrivateKey) a)
    rw [hnone] at hlook
    cases hlook
  | add st p _ ih => exact addMnemonic_preserves P st p ih

theorem reachable_loop (P : Prims) (environ rest : List String) (lk : localKeyStore)
    (n : Nat) (h : Reachable P lk) :
    Reachable P (loadFromEnvironment.loop P environ rest lk n).lk := by
  induction rest generalizing lk n with
  | nil => exact h
  | cons e t ih =>
    unfold loadFromEnvironment.loop
    split_ifs with hc
    · exact ih lk n h
    · split
      · exact h
      · rename_i key _
        split_ifs with hempty
        · exact h
        · split
          · exact Reachable.add lk _ h
          · exact ih _ _ (Reachable.add lk _ h)

/-- C6: in every store reachable from the empty map by calls of `addMnemonic`, whether
they succeed or fail, the key string of each entry is the address the account
derivation gives for the private key of that entry; the same holds for the store the
loader leaves when started on such a store, in any environment. -/
theorem C6_identity_derived_from_key (P : Prims) (lk : localKeyStore)
    (hreach : Reachable P lk) :
    (∀ a k, lk.keys.lookup a = some k →
        ∃ account, P.AccountFromPrivateKey k = .ok account ∧ account.Address = a) ∧
      ∀ (environ : List String) (a : String) (k : PrivateKey),
        (lk.loadFromEnvironment P environ).lk.keys.lookup a = some k →
        ∃ account, P.AccountFromPrivateKey k = .ok account ∧ account.Address = a := by
  constructor
  · intro a k hlook
    exact ⟨⟨a⟩, reachable_invariant P lk hreach a k hlook, rfl⟩
  · intro environ a k hlook
    exact ⟨⟨a⟩, reachable_invariant P _ (reachable_loop P environ environ lk 0 hreach) a k hlook,
      rfl⟩

/-- Witness of C6: the store after a valid phrase, a malformed one and a second valid
one. -/
theorem C6_identity_derived_from_key_witness :
    (∀ a k, (addAll demoPrims ⟨∅⟩ ["abc", "not valid!", "bcd"]).keys.lookup a = some k →
        ∃ account, demoPrims.AccountFromPrivateKey k = .ok account ∧ account.Address = a) ∧
      ∀ (environ : List String) (a : String) (k : PrivateKey),
        ((addAll demoPrims ⟨∅⟩ ["abc", "not valid!", "bcd"]).loadFromEnvironment demoPrims
            environ).lk.keys.lookup a = some k →
        ∃ account, demoPrims.AccountFromPrivateKey k = .ok account ∧ account.Address = a :=
  C6_identity_derived_from_key demoPrims (addAll demoPrims ⟨∅⟩ ["abc", "not valid!", "bcd"])
    (Reachable.add _ "bcd" (Reachable.add _ "not valid!" (Reachable.add _ "abc" Reachable.empty)))

theorem keys_insert (m : KeyMap) (a : String) (k : PrivateKey) :
    (m.insert a k).keys = insert a m.keys := by
  ext x
  rw [Finmap.mem_keys, Finmap.mem_insert, Finset.mem_insert, Finmap.mem_keys]

theorem entries_for_key (m : KeyMap) (a : String) (h : a ∈ m) :
    Multiset.card (Multiset.filter (fun e => a = e.1) m.entries) = 1 := by
  rw [← Multiset.count_map]
  apply Multiset.count_eq_one_of_mem
  · exact m.keys.nodup
  · exact Finmap.mem_keys.mpr h

theorem addAll_keys (P : Prims) (lk : localKeyStore) (ps : List String) :
    (addAll P lk ps).keys.keys =
      lk.keys.keys ∪ (ps.filterMap (fun x => (deriveEntry P x).map Prod.fst)).toFinset := by
  induction ps generalizing lk with
  | nil => simp [addAll]
  | cons p t ih =>
    rw [addAll_cons, ih]
    cases hd : deriveEntry P p with
    | none =>
      obtain ⟨e, _, hlk, _⟩ := addMnemonic_of_fail P lk p hd
      rw [hlk]
      simp [List.filterMap_cons, hd]
    | some ak =>
      obtain ⟨a, k⟩ := ak
      rw [addMnemonic_of_derive P lk p a k hd]
      simp only [keys_insert, List.filterMap_cons, hd, Option.map_some', List.toFinset_cons]
      ext x
      simp only [Finset.mem_union, Finset.mem_insert]
      tauto

/-- C7: duplicates are last-write-wins.  Adding a valid phrase twice leaves the store
of adding it once.  For two valid phrases deriving the same identity, adding both
leaves the store of adding the later one alone: the identity maps to the key of the
later phrase, it has exactly one entry, and the map is as large as after the first
phrase.  Started on the empty map, the size after any phrases is the number of distinct
identities they derive. -/
theorem C7_duplicates_last_write_wins (P : Prims) (lk : localKeyStore) (p q a : String)
    (k1 k2 : PrivateKey) (hp : deriveEntry P p = some (a, k1))
    (hq : deriveEntry P q = some (a, k2)) :
    ((lk.addMnemonic P p).lk.addMnemonic P p).lk = (lk.addMnemonic P p).lk ∧
      ((lk.addMnemonic P p).lk.addMnemonic P q).lk = (lk.addMnemonic P q).lk ∧
      ((lk.addMnemonic P p).lk.addMnemonic P q).lk.keys.lookup a = some k2 ∧
      Multiset.card (Multiset.filter (fun e => a = e.1)
        ((lk.addMnemonic P p).lk.addMnemonic P q).lk.keys.entries) = 1 ∧
      ((lk.addMnemonic P p).lk.addMnemonic P q).lk.keys.keys.card =
        (lk.addMnemonic P p).lk.keys.keys.card ∧
      ∀ ps : List String, (addAll P ⟨∅⟩ ps).keys.keys.card =
        (ps.filterMap (fun x => (deriveEntry P x).map Prod.fst)).toFinset.card := by
  have h1 : (lk.addMnemonic P p).lk = ⟨lk.keys.insert a k1⟩ := by
    rw [addMnemonic_of_derive P lk p a k1 hp]
  have h2 : ∀ st : localKeyStore, (st.addMnemonic P q).lk = ⟨st.keys.insert a k2⟩ := by
    intro st
    rw [addMnemonic_of_derive P st q a k2 hq]
  have h3 : ∀ st : localKeyStore, (st.addMnemonic P p).lk = ⟨st.keys.insert a k1⟩ := by
    intro st
    rw [addMnemonic_of_derive P st p a k1 hp]
  refine ⟨?_, ?_, ?_, ?_, ?_, ?_⟩
  · rw [h3, h3, Finmap.insert_insert]
  · rw [h2, h2, h1, Finmap.insert_insert]
  · rw [h2, Finmap.lookup_insert]
  · apply entries_for_key
    rw [h2]
    exact Finmap.mem_insert.mpr (Or.inl rfl)
  · rw [h2, h1, keys_insert, keys_insert]
    simp
  · intro ps
    rw [addAll_keys]
    simp

/-- Witness of C7: the phrases `abc` and `ab cd` both derive `ADDR-a`. -/
theorem C7_duplicates_last_write_wins_witness :
    deriveEntry demoPrims "abc" = some ("ADDR-a", [97, 98, 99]) ∧
    deriveEntry demoPrims "ab cd" = some ("ADDR-a", [97, 98, 32, 99, 100]) ∧
    (((demoStore.addMnemonic demoPrims "abc").lk.addMnemonic demoPrims "ab cd").lk.keys.lookup
      "ADDR-a" = some [97, 98, 32, 99, 100]) ∧
    ((demoStore.addMnemonic demoPrims "abc").lk.addMnemonic demoPrims "ab cd").lk.keys.keys.card =
      (demoStore.addMnemonic demoPrims "abc").lk.keys.keys.card :=
  have h := C7_duplicates_last_write_wins demoPrims demoStore "abc" "ab cd" "ADDR-a"
    [97, 98, 99] [97, 98, 32, 99, 100] (by decide) (by decide)
  ⟨by decide, by decide, h.2.2.1, h.2.2.2.2.1⟩

/-- C9 at a failing input: the entry `NOTE=see x_MNEMONIC` has the name `NOTE`, which
does not contain the marker, yet its value is handed to `addMnemonic` (the phrase
reaches `mnemonic.ToPrivateKey`) and the process exits with status 1; without the
entry the loader returns normally. -/
theorem C9_marker_in_value_is_loaded :
    os.entryName "NOTE=see x_MNEMONIC" = some "NOTE" ∧
    strings.Contains "NOTE" "_MNEMONIC" = false ∧
    NewLocalKeyStore demoPrims ["HOME=/root", "NOTE=see x_MNEMONIC"] =
      ⟨⟨∅⟩,
        [.ToPrivateKey "see x_MNEMONIC",
          .Log .Error ("fatal error in envMnemonic load, idx key:NOTE, " ++
            "err:failed to add mnemonic: invalid mnemonic"),
          .Exit 1],
        .exited 1⟩ ∧
    NewLocalKeyStore demoPrims ["HOME=/root"] =
      ⟨⟨∅⟩, [.Log .Debug "loaded 0 mnemonics"], .returned⟩ := by
  decide

/-! ## Presence after a load, delegation of signing, lookup -/

theorem addAll_holds_derived (P : Prims) (lk : localKeyStore) (xs : List String)
    (p a : String) (k : PrivateKey) (hp : p ∈ xs) (hd : deriveEntry P p = some (a, k)) :
    (addAll P lk xs).HasAccount a = true := by
  rw [hasAccount_iff_mem, ← Finmap.mem_keys, addAll_keys]
  apply Finset.mem_union_right
  rw [List.mem_toFinset, List.mem_filterMap]
  exact ⟨p, hp, by rw [hd]; rfl⟩

/-- C11: after loading non-empty valid phrases the identity each of them derives is
held.  When the phrases read are `xs`, all non-empty and valid, the loader returns and
`HasAccount` is true for the address derived from the key of every phrase of `xs`; for
a single phrase `p` this is the load of `[p]`, on the empty store as on any other. -/
theorem C11_loaded_identities_present (P : Prims) (environ xs : List String)
    (lk : localKeyStore) (hform : NameValueForm environ) (hseq : phrasesOf environ = xs)
    (hvalid : ∀ p ∈ xs, p ≠ "" ∧ (deriveEntry P p).isSome = true) :
    (lk.loadFromEnvironment P environ).outcome = .returned ∧
      (lk.loadFromEnvironment P environ).lk = addAll P lk xs ∧
      ∀ p ∈ xs, ∀ (a : String) (k : PrivateKey), deriveEntry P p = some (a, k) →
        (lk.loadFromEnvironment P environ).lk.HasAccount a = true := by
  have hseq2 : phrasesOf environ = xs ++ [] := by rw [hseq, List.append_nil]
  obtain ⟨rest, hrest, hload⟩ := load_of_valid_then P environ lk xs _ hform hseq2 hvalid
  have hnil : rest = [] := List.map_eq_nil_iff.mp hrest
  subst hnil
  have hlk : (lk.loadFromEnvironment P environ).lk = addAll P lk xs := by
    rw [hload]
    rfl
  refine ⟨by rw [hload]; rfl, hlk, ?_⟩
  intro p hp a k hd
  rw [hlk]
  exact addAll_holds_derived P lk xs p a k hp hd

/-- Witness of C11: the phrases `abc` and `bcd` loaded into the empty store. -/
theorem C11_loaded_identities_present_witness :
    (NewLocalKeyStore demoPrims ["A_MNEMONIC=abc", "PATH=/bin", "B_MNEMONIC=bcd"]).outcome =
        .returned ∧
      (NewLocalKeyStore demoPrims ["A_MNEMONIC=abc", "PATH=/bin", "B_MNEMONIC=bcd"]).lk =
        addAll demoPrims ⟨∅⟩ ["abc", "bcd"] ∧
      ∀ p ∈ ["abc", "bcd"], ∀ (a : String) (k : PrivateKey),
        deriveEntry demoPrims p = some (a, k) →
        (NewLocalKeyStore demoPrims
          ["A_MNEMONIC=abc", "PATH=/bin", "B_MNEMONIC=bcd"]).lk.HasAccount a = true :=
  C11_loaded_identities_present demoPrims ["A_MNEMONIC=abc", "PATH=/bin", "B_MNEMONIC=bcd"]
    ["abc", "bcd"] ⟨∅⟩ (by decide) (by decide) (by decide)

/-- C12: for an identity the store holds, `SignWithAccount` returns exactly the triple
the signing primitive produces for the key stored under that identity and the given
transaction; the primitive is called once, with that key, so the result is the same in
every store that maps the identity to the same key, whatever its other entries. -/
theorem C12_signWithAccount_delegates (P : Prims) (lk : localKeyStore) (tx : Transaction)
    (identity : String) (key : PrivateKey) (hheld : lk.keys.lookup identity = some key) :
    lk.SignWithAccount P tx identity =
        ⟨P.SignTransaction key tx, [.SignTransaction key tx]⟩ ∧
      ∀ lk' : localKeyStore, lk'.keys.lookup identity = some key →
        lk'.SignWithAccount P tx identity = lk.SignWithAccount P tx identity := by
  have h : ∀ st : localKeyStore, st.keys.lookup identity = some key →
      st.SignWithAccount P tx identity =
        ⟨P.SignTransaction key tx, [.SignTransaction key tx]⟩ := by
    intro st hst
    unfold localKeyStore.SignWithAccount
    rw [hst]
  exact ⟨h lk hheld, fun lk' hlk' => by rw [h lk' hlk', h lk hheld]⟩

/-- Witness of C12: signing the transaction `1, 2` for `ADDR-b` in the two-key store. -/
theorem C12_signWithAccount_delegates_witness :
    demoStore.SignWithAccount demoPrims [1, 2] "ADDR-b" =
        ⟨demoPrims.SignTransaction [98, 99, 100] [1, 2],
          [.SignTransaction [98, 99, 100] [1, 2]]⟩ ∧
      ∀ lk' : localKeyStore, lk'.keys.lookup "ADDR-b" = some [98, 99, 100] →
        lk'.SignWithAccount demoPrims [1, 2] "ADDR-b" =
          demoStore.SignWithAccount demoPrims [1, 2] "ADDR-b" :=
  C12_signWithAccount_delegates demoPrims demoStore [1, 2] "ADDR-b" [98, 99, 100] (by decide)

/-- C13: `HasAccount` is true exactly for the keys of the map, that is for the strings
the map sends to some private key; on the empty map it is false for every identity. -/
theorem C13_hasAccount_iff_key (lk : localKeyStore) (identity : String) :
    (lk.HasAccount identity = true ↔ identity ∈ lk.keys) ∧
      (lk.HasAccount identity = true ↔ ∃ key, lk.keys.lookup identity = some key) ∧
      (localKeyStore.mk ∅).HasAccount identity = false := by
  refine ⟨hasAccount_iff_mem lk identity, ?_, ?_⟩
  · rw [hasAccount_iff_mem]
    exact Finmap.mem_iff
  · rw [hasAccount_false_iff]
    exact @Finmap.not_mem_empty String (fun _ => PrivateKey) identity

theorem hasAccountM_run (lk : localKeyStore) (a : String) :
    (localKeyStore.HasAccountM a).run lk = (lk.HasAccount a, lk) := rfl

theorem scanAddressesM_run (lk : localKeyStore) (l : List String) :
    (localKeyStore.scanAddressesM l).run lk = (lk.scanAddresses l, lk) := by
  induction l with
  | nil => rfl
  | cons a t ih =>
    by_cases ha : lk.HasAccount a = true
    · have hrun : (localKeyStore.HasAccountM a).run lk = (true, lk) := by
        rw [hasAccountM_run, ha]
      simp only [localKeyStore.scanAddressesM, localKeyStore.scanAddresses, ha, if_true]
      show (do
        let found ← localKeyStore.HasAccountM a
        if found then pure (a, none) else localKeyStore.scanAddressesM t).run lk = _
      rw [StateT.run_bind, hrun]
      rfl
    · have hf : lk.HasAccount a = false := by simpa using ha
      have hrun : (localKeyStore.HasAccountM a).run lk = (false, lk) := by
        rw [hasAccountM_run, hf]
      simp only [localKeyStore.scanAddressesM, localKeyStore.scanAddresses, hf]
      show (do
        let found ← localKeyStore.HasAccountM a
        if found then pure (a, none) else localKeyStore.scanAddressesM t).run lk = _
      rw [StateT.run_bind, hrun]
      exact ih

/-- C14: the three read methods leave the map as it was.  Run as computations on the
receiver, `HasAccount`, `FindFirstSigner` and `SignWithAccount` reply what the methods
reply and end in the store they started from, for every store and every argument, on
the paths that succeed and on those that return an error. -/
theorem C14_read_methods_keep_store (P : Prims) (lk : localKeyStore)
    (rangeOrder addresses : List String) (tx : Transaction) (publicAddress : String) :
    (localKeyStore.HasAccountM publicAddress).run lk = (lk.HasAccount publicAddress, lk) ∧
      (localKeyStore.FindFirstSignerM rangeOrder addresses).run lk =
        (lk.FindFirstSigner rangeOrder addresses, lk) ∧
      (localKeyStore.SignWithAccountM P tx publicAddress).run lk =
        (lk.SignWithAccount P tx publicAddress, lk) := by
  refine ⟨rfl, ?_, ?_⟩
  · unfold localKeyStore.FindFirstSignerM localKeyStore.FindFirstSigner
    cases hsel : (if addresses.length = 0 then rangeOrder.head? else none) with
    | some addr => rfl
    | none => exact scanAddressesM_run lk addresses
  · unfold localKeyStore.SignWithAccountM localKeyStore.SignWithAccount
    cases hl : lk.keys.lookup publicAddress with
    | none =>
      show (do
        let st ← get
        match st.keys.lookup publicAddress with
        | none =>
          pure (SignOutcome.mk ⟨"", [], some (.errorString
            ("key not found for address " ++ publicAddress))⟩ [])
        | some key =>
          pure (SignOutcome.mk (P.SignTransaction key tx) [.SignTransaction key tx])
        : StateM localKeyStore SignOutcome).run lk = _
      simp [StateT.run_bind, hl]
    | some key =>
      show (do
        let st ← get
        match st.keys.lookup publicAddress with
        | none =>
          pure (SignOutcome.mk ⟨"", [], some (.errorString
            ("key not found for address " ++ publicAddress))⟩ [])
        | some key =>
          pure (SignOutcome.mk (P.SignTransaction key tx) [.SignTransaction key tx])
        : StateM localKeyStore SignOutcome).run lk = _
      simp [StateT.run_bind, hl]

/-! ## Selection then signing, and the extraction of the name -/

theorem scanAddresses_ok_held (lk : localKeyStore) (l : List String) (a : String)
    (h : lk.scanAddresses l = (a, none)) : lk.HasAccount a = true := by
  induction l with
  | nil => simp [localKeyStore.scanAddresses] at h
  | cons b t ih =>
    by_cases hb : lk.HasAccount b = true
    · simp only [localKeyStore.scanAddresses, hb, if_true, Prod.mk.injEq, and_true] at h
      rw [← h]
      exact hb
    · simp only [localKeyStore.scanAddresses, hb] at h
      exact ih h

/-- C17: selection and signing compose.  When `FindFirstSigner` returns an identity
with no error, for any candidate list and any enumeration order of the map, that
identity is held, and for every transaction `SignWithAccount` takes the signing path:
it returns what the primitive returns for the stored key, not the key-not-found
error of its own. -/
theorem C17_selected_signer_can_sign (lk : localKeyStore) (rangeOrder candidates : List String)
    (a : String) (horder : IsRangeOrder lk.keys rangeOrder)
    (hfound : lk.FindFirstSigner rangeOrder candidates = (a, none)) :
    lk.HasAccount a = true ∧
      ∀ (P : Prims) (tx : Transaction), ∃ key, lk.keys.lookup a = some key ∧
        lk.SignWithAccount P tx a =
          ⟨P.SignTransaction key tx, [.SignTransaction key tx]⟩ := by
  have hheld : lk.HasAccount a = true := by
    cases candidates with
    | cons c t =>
      rw [findFirstSigner_cons] at hfound
      exact scanAddresses_ok_held lk (c :: t) a hfound
    | nil =>
      rw [findFirstSigner_nil] at hfound
      cases rangeOrder with
      | nil => simp at hfound
      | cons k ks =>
        simp only [List.head?_cons, Prod.mk.injEq, and_true] at hfound
        subst hfound
        rw [hasAccount_iff_mem, ← Finmap.mem_keys, ← horder.2]
        simp
  refine ⟨hheld, ?_⟩
  intro P tx
  obtain ⟨key, hkey⟩ := Finmap.mem_iff.mp ((hasAccount_iff_mem lk a).mp hheld)
  refine ⟨key, hkey, ?_⟩
  unfold localKeyStore.SignWithAccount
  rw [hkey]

/-- Witness of C17: the two-key store, enumerated as `ADDR-b, ADDR-a`, asked with no
candidate. -/
theorem C17_selected_signer_can_sign_witness :
    demoStore.HasAccount "ADDR-b" = true ∧
      ∀ (P : Prims) (tx : Transaction), ∃ key, demoStore.keys.lookup "ADDR-b" = some key ∧
        demoStore.SignWithAccount P tx "ADDR-b" =
          ⟨P.SignTransaction key tx, [.SignTransaction key tx]⟩ :=
  C17_selected_signer_can_sign demoStore ["ADDR-b", "ADDR-a"] [] "ADDR-b" (by decide)
    (by decide)

theorem indexByteChars_split (c : Char) (l : List Char) (h : c ∈ l) :
    ∃ pre post, l = pre ++ c :: post ∧ c ∉ pre ∧
      strings.indexByteChars c l = (pre.length : Int) := by
  induction l with
  | nil => cases h
  | cons d t ih =>
    by_cases hd : d = c
    · refine ⟨[], t, by simp [hd], by simp, ?_⟩
      simp [strings.indexByteChars, hd]
    · have ht : c ∈ t := by
        rcases List.mem_cons.mp h with rfl | ht
        · exact absurd rfl hd
        · exact ht
      obtain ⟨pre, post, hl, hpre, hidx⟩ := ih ht
      refine ⟨d :: pre, post, by simp [hl], ?_, ?_⟩
      · intro hmem
        rcases List.mem_cons.mp hmem with rfl | hm
        · exact hd rfl
        · exact hpre hm
      · simp only [strings.indexByteChars, hd, if_false, hidx, List.length_cons]
        have hnn : ¬ ((pre.length : Int) < 0) := by omega
        simp only [hnn, if_false]
        push_cast
        ring

theorem loadEntries_never_panics (P : Prims) (es : List (String × String))
    (lk : localKeyStore) (n : Nat) : (loadEntries P es lk n).outcome ≠ .panicked := by
  induction es generalizing lk n with
  | nil => simp [loadEntries, loadFromEnvironment.done]
  | cons e t ih =>
    obtain ⟨key, p⟩ := e
    by_cases hp : p = ""
    · subst hp
      rw [loadEntries_stop]
      simp [loadFromEnvironment.done]
    · cases herr : (lk.addMnemonic P p).err with
      | some err =>
        rw [loadEntries_fatal P key p t lk n err hp herr]
        simp
      | none =>
        rw [loadEntries_cons_ok P key p t lk n hp herr]
        exact ih _ _

/-- C18: the name extraction stays in bounds for an entry with an `=`.  The index
`strings.IndexByte` gives lies between 0 and the length, the slice up to it is the
text before the first `=` (the entry is that text, the `=`, and a rest, and the text
holds no `=`), and when every entry of the environment holds an `=` the loader never
ends in the out-of-range panic. -/
theorem C18_name_slice_in_bounds (entry : String) (environ : List String)
    (hentry : '=' ∈ entry.data) (hform : NameValueForm environ) :
    (0 ≤ strings.IndexByte entry '=' ∧
        strings.IndexByte entry '=' < (entry.data.length : Int)) ∧
      (∃ key value, sliceTo entry (strings.IndexByte entry '=') = some key ∧
        entry.data = key.data ++ '=' :: value ∧ '=' ∉ key.data) ∧
      ∀ (P : Prims) (lk : localKeyStore),
        (lk.loadFromEnvironment P environ).outcome ≠ .panicked := by
  obtain ⟨pre, post, hl, hpre, hidx⟩ := indexByteChars_split '=' entry.data hentry
  have hlen : entry.data.length = pre.length + (post.length + 1) := by
    rw [hl, List.length_append, List.length_cons]
  refine ⟨?_, ?_, ?_⟩
  · unfold strings.IndexByte
    rw [hidx, hlen]
    constructor
    · omega
    · push_cast
      omega
  · refine ⟨⟨pre⟩, post, ?_, hl, hpre⟩
    unfold sliceTo strings.IndexByte
    rw [hidx, if_pos ⟨by omega, by rw [hlen]; push_cast; omega⟩]
    congr 2
    rw [Int.toNat_ofNat]
    conv_lhs => rw [hl]
    exact List.take_left' rfl
  · intro P lk
    unfold localKeyStore.loadFromEnvironment
    rw [loop_eq_loadEntries P environ environ hform]
    exact loadEntries_never_panics P _ lk 0

/-- Witness of C18: the entry `A_MNEMONIC=abc=def` in a two-entry environment. -/
theorem C18_name_slice_in_bounds_witness :
    sliceTo "A_MNEMONIC=abc=def" (strings.IndexByte "A_MNEMONIC=abc=def" '=') =
        some "A_MNEMONIC" ∧
      (0 ≤ strings.IndexByte "A_MNEMONIC=abc=def" '=' ∧
        strings.IndexByte "A_MNEMONIC=abc=def" '=' <
          (("A_MNEMONIC=abc=def" : String).data.length : Int)) ∧
      ∀ (P : Prims) (lk : localKeyStore),
        (lk.loadFromEnvironment P ["HOME=/root", "A_MNEMONIC=abc=def"]).outcome ≠ .panicked :=
  have h := C18_name_slice_in_bounds "A_MNEMONIC=abc=def" ["HOME=/root", "A_MNEMONIC=abc=def"]
    (by decide) (by decide)
  ⟨by decide, h.1, h.2.2⟩

/-! ## The log of a load -/

theorem logged_append (a b : List Event) : logged (a ++ b) = logged a ++ logged b := by
  induction a with
  | nil => rfl
  | cons e t ih => cases e <;> simp [logged, ih]

theorem logged_done (lk : localKeyStore) (n : Nat) :
    logged (loadFromEnvironment.done lk n).trace =
      [(.Debug, "loaded " ++ toString n ++ " mnemonics")] := rfl

theorem addMnemonic_view_error (P : Prims) (lk : localKeyStore) (p : String) (e : GoError)
    (h : deriveView P p = .inl e) :
    (lk.addMnemonic P p).err = some (fmt.ErrorfW "failed to add mnemonic: " e) ∧
      logged (lk.addMnemonic P p).trace = [] := by
  cases hk : P.ToPrivateKey p with
  | error e1 =>
    simp only [deriveView, hk, Sum.inl.injEq] at h
    subst h
    simp [localKeyStore.addMnemonic, hk, logged]
  | ok key =>
    cases ha : P.AccountFromPrivateKey key with
    | error e1 =>
      simp only [deriveView, hk, ha, Sum.inl.injEq] at h
      subst h
      simp [localKeyStore.addMnemonic, hk, ha, logged]
    | ok account => simp [deriveView, hk, ha] at h

theorem addMnemonic_view_address (P : Prims) (lk : localKeyStore) (p a : String)
    (h : deriveView P p = .inr a) :
    (lk.addMnemonic P p).err = none ∧
      logged (lk.addMnemonic P p).trace =
        [(.Info, "Mnemonics available for account:" ++ a)] := by
  cases hk : P.ToPrivateKey p with
  | error e1 => simp [deriveView, hk] at h
  | ok key =>
    cases ha : P.AccountFromPrivateKey key with
    | error e1 => simp [deriveView, hk, ha] at h
    | ok account =>
      simp only [deriveView, hk, ha, Sum.inr.injEq] at h
      subst h
      simp [localKeyStore.addMnemonic, hk, ha, logged, misc.Infof]

theorem logged_loadEntries (P : Prims) (es : List (String × String)) (lk : localKeyStore)
    (n : Nat) :
    logged (loadEntries P es lk n).trace =
      logFromViews
        (es.map (fun e => (e.1, if e.2 = "" then none else some (deriveView P e.2)))) n := by
  induction es generalizing lk n with
  | nil => rfl
  | cons e t ih =>
    obtain ⟨key, p⟩ := e
    by_cases hp : p = ""
    · subst hp
      rw [loadEntries_stop, logged_done]
      simp [logFromViews]
    · cases hv : deriveView P p with
      | inl err =>
        obtain ⟨herr, hlog⟩ := addMnemonic_view_error P lk p err hv
        rw [loadEntries_fatal P key p t lk n _ hp herr]
        simp [logged_append, hlog, logged, logFromViews, hp, hv]
      | inr a =>
        obtain ⟨herr, hlog⟩ := addMnemonic_view_address P lk p a hv
        rw [loadEntries_cons_ok P key p t lk n hp herr]
        simp [LoadResult.after, logged_append, hlog, ih, logFromViews, hp, hv]

/-- C15: key material is never logged.  For an environment of `NAME=VALUE` entries the
records the loader hands to the logger are computed by `logFromViews` from the names of
the variables read, the addresses derived, the derivation errors and the running
count; so a second run, with other primitives, other phrases, other keys and another
store, logs the same records whenever it agrees with the first on those values. -/
theorem C15_log_independent_of_key_material (P : Prims) (environ : List String)
    (lk : localKeyStore) (hform : NameValueForm environ) :
    logged (lk.loadFromEnvironment P environ).trace = logFromViews (entryViews P environ) 0 ∧
      ∀ (P' : Prims) (environ' : List String) (lk' : localKeyStore),
        NameValueForm environ' → entryViews P' environ' = entryViews P environ →
        logged (lk'.loadFromEnvironment P' environ').trace =
          logged (lk.loadFromEnvironment P environ).trace := by
  have h : ∀ (Q : Prims) (env : List String) (st : localKeyStore), NameValueForm env →
      logged (st.loadFromEnvironment Q env).trace = logFromViews (entryViews Q env) 0 := by
    intro Q env st hf
    unfold localKeyStore.loadFromEnvironment entryViews
    rw [loop_eq_loadEntries Q env env hf, logged_loadEntries]
  refine ⟨h P environ lk hform, ?_⟩
  intro P' environ' lk' hform' hviews
  rw [h P' environ' lk' hform', h P environ lk hform, hviews]

/-- Witness of C15: the phrases `abc` and `ab cd` have different keys and the same
address; the run on the second one logs what the run on the first one logs. -/
theorem C15_log_independent_of_key_material_witness :
    deriveEntry demoPrims "abc" ≠ deriveEntry demoPrims "ab cd" ∧
    logged ((localKeyStore.mk ∅).loadFromEnvironment demoPrims ["A_MNEMONIC=ab cd"]).trace =
      logged (demoStore.loadFromEnvironment demoPrims ["A_MNEMONIC=abc"]).trace :=
  ⟨by decide,
    (C15_log_independent_of_key_material demoPrims ["A_MNEMONIC=abc"] demoStore
      (by decide)).2 demoPrims ["A_MNEMONIC=ab cd"] ⟨∅⟩ (by decide)
      ((show entryViews demoPrims ["A_MNEMONIC=ab cd"] =
            [("A_MNEMONIC", some (.inr "ADDR-a"))] by decide).trans
        (show entryViews demoPrims ["A_MNEMONIC=abc"] =
            [("A_MNEMONIC", some (.inr "ADDR-a"))] by decide).symm)⟩

theorem filterMap_length_of_isSome (P : Prims) (xs : List String)
    (h : ∀ p ∈ xs, (deriveEntry P p).isSome = true) :
    (xs.filterMap (fun x => (deriveEntry P x).map Prod.fst)).length = xs.length := by
  induction xs with
  | nil => rfl
  | cons p t ih =>
    obtain ⟨ak, hak⟩ := Option.isSome_iff_exists.mp (h p (List.mem_cons_self p t))
    have ht : ∀ q ∈ t, (deriveEntry P q).isSome = true :=
      fun q hq => h q (List.mem_cons_of_mem p hq)
    simp [List.filterMap_cons, hak, ih ht]

/-- C16, as stated, fails: two variables holding the phrase `abc` give a load that
returns and reports "loaded 2 mnemonics", while the map, empty before, holds one
entry. -/
theorem C16_counterexample :
    (NewLocalKeyStore demoPrims ["A_MNEMONIC=abc", "B_MNEMONIC=abc"]).outcome = .returned ∧
    logged (NewLocalKeyStore demoPrims ["A_MNEMONIC=abc", "B_MNEMONIC=abc"]).trace =
      [(.Info, "Mnemonics available for account:ADDR-a"),
        (.Info, "Mnemonics available for account:ADDR-a"),
        (.Debug, "loaded 2 mnemonics")] ∧
    (NewLocalKeyStore demoPrims ["A_MNEMONIC=abc", "B_MNEMONIC=abc"]).lk.keys.keys.card = 1 := by
  decide

/-- C16, amended: after a load that does not fail (the phrases read are the non-empty
valid `xs`, followed by nothing or by an empty phrase) the count reported is the number
of phrases `addMnemonic` loaded, `xs.length`.  The map, empty before, holds at most
that many entries, and exactly that many when the phrases derive pairwise distinct
identities. -/
theorem C16_reported_count (P : Prims) (environ xs tail : List String)
    (hform : NameValueForm environ) (hseq : phrasesOf environ = xs ++ tail)
    (hvalid : ∀ p ∈ xs, p ≠ "" ∧ (deriveEntry P p).isSome = true)
    (htail : tail = [] ∨ ∃ ys, tail = "" :: ys) :
    NewLocalKeyStore P environ =
        ⟨addAll P ⟨∅⟩ xs,
          addAllTrace P ⟨∅⟩ xs ++
            [misc.Debugf ("loaded " ++ toString xs.length ++ " mnemonics")],
          .returned⟩ ∧
      derivedPhrases (NewLocalKeyStore P environ).trace = xs ∧
      (NewLocalKeyStore P environ).lk.keys.keys.card ≤ xs.length ∧
      ((xs.filterMap (fun x => (deriveEntry P x).map Prod.fst)).Nodup →
        (NewLocalKeyStore P environ).lk.keys.keys.card = xs.length) := by
  have hmain : NewLocalKeyStore P environ =
      ⟨addAll P ⟨∅⟩ xs,
        addAllTrace P ⟨∅⟩ xs ++
          [misc.Debugf ("loaded " ++ toString xs.length ++ " mnemonics")],
        .returned⟩ := by
    obtain ⟨rest, hrest, hload⟩ := load_of_valid_then P environ ⟨∅⟩ xs tail hform hseq hvalid
    unfold NewLocalKeyStore
    rw [hload]
    rcases htail with hnil | ⟨ys, hys⟩
    · subst hnil
      have hr : rest = [] := List.map_eq_nil_iff.mp hrest
      subst hr
      rfl
    · subst hys
      cases rest with
      | nil => simp at hrest
      | cons e t =>
        obtain ⟨key, q⟩ := e
        have hq : q = "" := by
          simp only [List.map_cons, List.cons.injEq] at hrest
          exact hrest.1
        subst hq
        rw [loadEntries_stop]
        rfl
  have hsome : ∀ p ∈ xs, (deriveEntry P p).isSome = true := fun p hp => (hvalid p hp).2
  have hkeys : (addAll P ⟨∅⟩ xs).keys.keys =
      (xs.filterMap (fun x => (deriveEntry P x).map Prod.fst)).toFinset := by
    rw [addAll_keys]
    simp
  refine ⟨hmain, ?_, ?_, ?_⟩
  · rw [hmain]
    simp [derivedPhrases_append, derivedPhrases_addAllTrace, derivedPhrases, misc.Debugf]
  · rw [hmain]
    show (addAll P ⟨∅⟩ xs).keys.keys.card ≤ xs.length
    rw [hkeys, ← filterMap_length_of_isSome P xs hsome]
    exact List.toFinset_card_le _
  · intro hnodup
    rw [hmain]
    show (addAll P ⟨∅⟩ xs).keys.keys.card = xs.length
    rw [hkeys, List.toFinset_card_of_nodup hnodup, filterMap_length_of_isSome P xs hsome]

/-- Witness of C16 amended: the phrases `abc` and `bcd`, then an empty slot. -/
theorem C16_reported_count_witness :
    logged (NewLocalKeyStore demoPrims
        ["A_MNEMONIC=abc", "B_MNEMONIC=bcd", "C_MNEMONIC="]).trace =
      [(.Info, "Mnemonics available for account:ADDR-a"),
        (.Info, "Mnemonics available for account:ADDR-b"),
        (.Debug, "loaded 2 mnemonics")] ∧
    (NewLocalKeyStore demoPrims
        ["A_MNEMONIC=abc", "B_MNEMONIC=bcd", "C_MNEMONIC="]).lk.keys.keys.card =
      ["abc", "bcd"].length :=
  have h := C16_reported_count demoPrims ["A_MNEMONIC=abc", "B_MNEMONIC=bcd", "C_MNEMONIC="]
    ["abc", "bcd"] [""] (by decide) (by decide) (by decide) (Or.inr ⟨[], rfl⟩)
  ⟨by decide, h.2.2.2 (by decide)⟩

end algo
